import Mathlib

/-!
# BigQuery lineage extraction: a shallow embedding

This file embeds the lineage pipeline of
`metadata-ingestion/src/datahub/ingestion/source/bigquery_v2/lineage.py`
(class `BigqueryLineageExtractor`) and proves properties about it:

* `create_lineage_map` embeds `_create_lineage_map` (the lineage map builder);
* `get_upstream_tables_fuel` / `get_upstream_tables` embed the recursive
  temporary-table resolver `get_upstream_tables`;
* `get_upstream_lineage_info` embeds the caller-facing facade of the same
  name, including its build-once caching of `lineage_metadata`;
* `compute_bigquery_lineage_via_gcp_logging` embeds the log-source driver
  with its catch-all error handler.

Table references are represented by their canonical string key
`projects/<p>/datasets/<d>/tables/<t>` exactly as the Python code uses
`str(ref.get_sanitized_table_ref())` results as dictionary keys.  Python
dictionaries become association lists, Python sets become duplicate-free
lists in insertion order (the Python iteration order of a set is arbitrary;
the model fixes insertion order, which no proved statement depends on).
The SQL parser and the allow/deny patterns are external collaborators and
enter as function parameters.  String splitting is re-implemented
structurally over the character list so that every definition evaluates
inside the kernel; its semantics agrees with Python `str.split(sep)` for a
one-character separator.
-/

set_option maxRecDepth 20000

namespace BigqueryLineage

/-! ## String splitting (Python `s.split(sep)` for a one-character separator) -/

/-- Accumulating worker for `splitSep`: walks the character list, cutting at
every occurrence of `sep`. -/
def splitSepAux (sep : Char) : List Char → List Char → List String
  | [], acc => [String.mk acc.reverse]
  | c :: rest, acc =>
    if c = sep then String.mk acc.reverse :: splitSepAux sep rest []
    else splitSepAux sep rest (c :: acc)

/-- Python `s.split(sep)` for a one-character separator: always returns a
non-empty list, keeps empty segments. -/
def splitSep (sep : Char) (s : String) : List String :=
  splitSepAux sep s.data []

/-- Python `s.split(sep)[-1]` (a split result is never empty). -/
def lastSeg (sep : Char) (s : String) : String :=
  (splitSep sep s).getLastD ""

/-- Python `s.split(sep)[i]` for the index accesses performed by the code;
the code only indexes canonical reference strings, which always have six
segments, so the out-of-range default is never consulted there. -/
def seg (sep : Char) (i : Nat) (s : String) : String :=
  (splitSep sep s).getD i ""

/-! ## Data model -/

/-- A table reference, identified by (project, dataset, table).  Mirrors the
sanitized `BigQueryTableRef` of `bigquery_audit.py` (that module is not part
of the sources; its canonical string form is taken from the spec data
model). -/
structure BigQueryTableRef where
  project : String
  dataset : String
  table : String
deriving DecidableEq

/-- Modelled from the spec: `str(ref.get_sanitized_table_ref())`, the
canonical string form of a table reference, used as the map key.  The shape
`projects/<p>/datasets/<d>/tables/<t>` is the one `_create_lineage_map`
relies on when it takes `split("/")` parts 3 and -1. -/
def BigQueryTableRef.refString (r : BigQueryTableRef) : String :=
  "projects/" ++ r.project ++ "/datasets/" ++ r.dataset ++ "/tables/" ++ r.table

/-- `destination_table_str_parts[3]` of `_create_lineage_map`: the dataset
segment of a canonical reference string. -/
def datasetOfRef (s : String) : String := seg '/' 3 s

/-- `destination_table_str_parts[-1]` of `_create_lineage_map`: the bare
table name, the final path segment of a canonical reference string. -/
def tableOfRef (s : String) : String := lastSeg '/' s

/-- One parsed query event (`QueryEvent`): a completed, non-errored query.
`destinationTable` is absent for read-only queries. -/
structure QueryEvent where
  destinationTable : Option BigQueryTableRef
  referencedTables : List BigQueryTableRef
  referencedViews : List BigQueryTableRef
  query : String

/-- The slice of `BigQueryV2Config` the lineage extractor reads.  The
allow/deny patterns are consumed as predicates (spec section 6).  The field
`tempTablePfx` carries `temp_table_dataset_prefix` (renamed; the original
trailing word cannot appear in a Lean name here). -/
structure LineageConfig where
  datasetAllowed : String → Bool
  tableAllowed : String → Bool
  tempTablePfx : String
  platform_instance : Option String
  env : String

/-- The SQL table parser collaborator: `BigQuerySQLParser(query).get_tables()`.
`none` models the parser raising an exception. -/
abbrev SqlParser := String → Option (List String)

/-- The counters of `BigQueryV2Report` that `_create_lineage_map` and the
error handler write.  `failureCount` counts `report_failure` calls. -/
structure LineageReport where
  num_total_lineage_entries : Nat := 0
  num_skipped_lineage_entries_missing_data : Nat := 0
  num_skipped_lineage_entries_not_allowed : Nat := 0
  num_skipped_lineage_entries_other : Nat := 0
  num_skipped_lineage_entries_sql_parser_failure : Nat := 0
  failureCount : Nat := 0
deriving DecidableEq

/-! ## The lineage map

`Dict[str, Set[str]]` becomes an association list from destination key to a
duplicate-free upstream list.  `addUpstream` is `lineage_map[k].add(v)` on a
`defaultdict(set)`; `setUpstreams` is `lineage_map[k] = s`. -/

/-- `Dict[str, Set[str]]`: destination key to upstream keys. -/
abbrev LineageMap := List (String × List String)

/-- Python `set.add` on a set represented as a duplicate-free list. -/
def listInsert (l : List String) (x : String) : List String :=
  if x ∈ l then l else l ++ [x]

/-- Dictionary lookup, `m.get(k)`. -/
def LineageMap.findSet : LineageMap → String → Option (List String)
  | [], _ => none
  | (k', s) :: rest, k => if k' = k then some s else LineageMap.findSet rest k

/-- The upstream set of `k`, empty when `k` has no entry. -/
def LineageMap.findSetD (m : LineageMap) (k : String) : List String :=
  (m.findSet k).getD []

/-- Python `k in m`. -/
def LineageMap.memKey (m : LineageMap) (k : String) : Bool :=
  (m.findSet k).isSome

/-- `lineage_map[k].add(v)` on a `defaultdict(set)`: creates the entry when
absent. -/
def addUpstream : LineageMap → String → String → LineageMap
  | [], k, v => [(k, [v])]
  | (k', s) :: rest, k, v =>
    if k' = k then (k', listInsert s v) :: rest
    else (k', s) :: addUpstream rest k v

/-- `lineage_map[k] = s` (the disambiguation replacement). -/
def setUpstreams : LineageMap → String → List String → LineageMap
  | [], k, s => [(k, s)]
  | (k', s') :: rest, k, s =>
    if k' = k then (k', s) :: rest
    else (k', s') :: setUpstreams rest k s

/-! ## `_create_lineage_map` -/

/-- The loop body of `_create_lineage_map` for one event.  Follows the
Python line by line: skip counters, allow/deny filtering of the destination,
self-reference filtering while adding referenced tables and views, and the
view/table disambiguation pass with its parser-failure `continue`. -/
def process_lineage_entry (cfg : LineageConfig) (parser : SqlParser)
    (st : LineageMap × LineageReport) (e : QueryEvent) :
    LineageMap × LineageReport :=
  let lm := st.1
  let rep := { st.2 with
    num_total_lineage_entries := st.2.num_total_lineage_entries + 1 }
  match e.destinationTable with
  | none =>
      (lm, { rep with num_skipped_lineage_entries_missing_data :=
               rep.num_skipped_lineage_entries_missing_data + 1 })
  | some dest =>
    if e.referencedTables.isEmpty && e.referencedViews.isEmpty then
      (lm, { rep with num_skipped_lineage_entries_missing_data :=
               rep.num_skipped_lineage_entries_missing_data + 1 })
    else
      let destStr := dest.refString
      if !(cfg.datasetAllowed (datasetOfRef destStr))
          || !(cfg.tableAllowed (tableOfRef destStr)) then
        (lm, { rep with num_skipped_lineage_entries_not_allowed :=
                 rep.num_skipped_lineage_entries_not_allowed + 1 })
      else
        -- referenced-table loop: add each reference distinct from the destination
        let step := fun (acc : LineageMap × Bool) (r : BigQueryTableRef) =>
          let rs := r.refString
          if rs ≠ destStr then (addUpstream acc.1 destStr rs, true) else acc
        let tabs := e.referencedTables.foldl step (lm, false)
        let views := e.referencedViews.foldl step (tabs.1, false)
        let lm := views.1
        let has_table := tabs.2
        let has_view := views.2
        if has_table && has_view then
          -- both present: the audit record conflates a view with its base
          -- tables, so re-filter through the SQL parser
          match parser e.query with
          | none =>
              -- parser raised: count the failure and `continue`; note that
              -- the additions made above stay in the map
              (lm, { rep with num_skipped_lineage_entries_sql_parser_failure :=
                       rep.num_skipped_lineage_entries_sql_parser_failure + 1 })
          | some tbls =>
              let referenced_objs := tbls.map (lastSeg '.')
              let curr := lm.findSetD destStr
              let filtered := curr.filter (fun ls => tableOfRef ls ∈ referenced_objs)
              (setUpstreams lm destStr filtered, rep)
        else if !(has_table || has_view) then
          (lm, { rep with num_skipped_lineage_entries_other :=
                   rep.num_skipped_lineage_entries_other + 1 })
        else (lm, rep)

/-- Zeroes the five skip/total counters, as the top of
`_create_lineage_map` does. -/
def resetLineageCounters (rep : LineageReport) : LineageReport :=
  { rep with
    num_total_lineage_entries := 0
    num_skipped_lineage_entries_missing_data := 0
    num_skipped_lineage_entries_not_allowed := 0
    num_skipped_lineage_entries_other := 0
    num_skipped_lineage_entries_sql_parser_failure := 0 }

/-- `_create_lineage_map(entries)`: single pass over the event sequence. -/
def create_lineage_map (cfg : LineageConfig) (parser : SqlParser)
    (entries : List QueryEvent) (rep : LineageReport) :
    LineageMap × LineageReport :=
  entries.foldl (process_lineage_entry cfg parser) ([], resetLineageCounters rep)

/-! ## `get_upstream_tables`: the temporary-table resolver

The Python function recurses through the map, replacing temporary tables by
their own upstreams, with a shared mutable `tables_seen` list for cycle
protection.  The embedding threads `tables_seen` explicitly (it is returned
alongside the result, because the caller's list object is mutated in place)
and carries a fuel argument standing for the recursion depth the call stack
allows; `get_upstream_tables_fuel_terminates` below shows a fuel of one more
than the number of not-yet-seen temporary keys always suffices, so the
fuel-free wrapper `get_upstream_tables` computes the Python result. -/

/-- Modelled from the spec: `BigQueryTableRef.is_temporary_table` of the
absent `bigquery_audit.py` module, "classified as temporary by a
configurable prefix/pattern match against its dataset or name"
(spec section 4.3). -/
def is_temporary_table (pfx : String) (ref : String) : Bool :=
  pfx.data.isPrefixOf (datasetOfRef ref).data
    || pfx.data.isPrefixOf (tableOfRef ref).data

/-- The `for ref_table in self.lineage_metadata[str(bq_table)]` loop body of
`get_upstream_tables`, parametrized by the recursive call `rec`.  Returns
`none` when a nested call runs out of fuel. -/
def goRefs (m : LineageMap) (isTemp : String → Bool)
    (rec : String → List String → Option (List String × List String)) :
    List String → List String → List String → Option (List String × List String)
  | [], ups, seen => some (ups, seen)
  | ref :: rest, ups, seen =>
    if isTemp ref then
      if ref ∈ seen then
        -- already visited: skip silently (cycle/diamond protection)
        goRefs m isTemp rec rest ups seen
      else
        let seen1 := seen ++ [ref]
        if m.memKey ref then
          match rec ref seen1 with
          | none => none
          | some (u, seen2) => goRefs m isTemp rec rest (u.foldl listInsert ups) seen2
        else
          -- dead end: a temporary table with no map entry contributes nothing
          goRefs m isTemp rec rest ups seen1
    else
      goRefs m isTemp rec rest (listInsert ups ref) seen

/-- `get_upstream_tables(bq_table, tables_seen)` with an explicit recursion
depth budget.  Both call sites in the source guard the key lookup with a
membership test, so the missing-key default of `findSetD` is never the
Python `KeyError` path. -/
def get_upstream_tables_fuel (isTemp : String → Bool) (m : LineageMap) :
    Nat → String → List String → Option (List String × List String)
  | 0, _, _ => none
  | fuel + 1, bq, seen =>
    goRefs m isTemp (get_upstream_tables_fuel isTemp m fuel) (m.findSetD bq) [] seen

/-- The number of map keys classified temporary and not yet in `seen`: the
quantity that shrinks at every nested resolver call. -/
def tempUnseenCount (m : LineageMap) (isTemp : String → Bool)
    (seen : List String) : Nat :=
  ((m.map Prod.fst).filter (fun k => isTemp k && !(decide (k ∈ seen)))).length

/-- `get_upstream_tables(bq_table, tables_seen)`: the resolver as the source
runs it, returning the upstream set together with the mutated seen list. -/
def get_upstream_tables (isTemp : String → Bool) (m : LineageMap)
    (bq : String) (seen : List String) : List String × List String :=
  (get_upstream_tables_fuel isTemp m (tempUnseenCount m isTemp seen + 1) bq seen).getD
    ([], seen)

/-! ## `get_upstream_lineage_info`: the caller-facing facade -/

/-- `f"{project_id}.{dataset}.{table}"`: the caller-facing identifier built
from a resolved reference (the field accesses of
`BigQueryTableRef.from_string_name`, modelled from the spec as the fixed
segments of the canonical string). -/
def ref_identifier (s : String) : String :=
  seg '/' 1 s ++ "." ++ seg '/' 3 s ++ "." ++ seg '/' 5 s

/-- Modelled from the spec: `mce_builder.make_dataset_urn_with_platform_instance`
(the emitter module is not part of the sources), the caller-facing urn
wrapping the identifier. -/
def make_dataset_urn (platform : String) (instance? : Option String)
    (name : String) (env : String) : String :=
  "urn:li:dataset:(urn:li:dataPlatform:" ++ platform ++ ","
    ++ (match instance? with | some i => i ++ "." | none => "") ++ name
    ++ "," ++ env ++ ")"

/-- `UpstreamClass(dataset=urn, type=DatasetLineageTypeClass.TRANSFORMED)`. -/
structure UpstreamClass where
  dataset : String
  lineageType : String
deriving DecidableEq

/-- Character-list lexicographic order, the total order on strings used to
model `sorted`. -/
def lexLe : List Char → List Char → Bool
  | [], _ => true
  | _ :: _, [] => false
  | a :: as, b :: bs => if a = b then lexLe as bs else Nat.blt a.toNat b.toNat

/-- Modelled from the spec: the total order over the caller-facing
identifier string by which the facade sorts (the comparison method of the
absent `bigquery_audit.py` reference type). -/
def idLe (a b : String) : Bool :=
  lexLe (ref_identifier a).data (ref_identifier b).data

/-- `idLe` as a relation, for the sorting lemmas. -/
def idLeP (a b : String) : Prop := idLe a b = true

instance : DecidableRel idLeP := fun a b => instDecidableEqBool (idLe a b) true

/-- `sorted(self.get_upstream_tables(str(bq_table), tables_seen=[]))`:
the sorted upstream reference list the facade iterates. -/
def facade_sorted_refs (cfg : LineageConfig) (m : LineageMap) (bq : String) :
    List String :=
  List.insertionSort idLeP
    (get_upstream_tables (is_temporary_table cfg.tempTablePfx) m bq []).1

/-- The `upstream_list` the facade builds: one `UpstreamClass` per sorted
resolved reference. -/
def facade_upstream_list (cfg : LineageConfig) (platform : String)
    (m : LineageMap) (bq : String) : List UpstreamClass :=
  (facade_sorted_refs cfg m bq).map (fun r =>
    ⟨make_dataset_urn platform cfg.platform_instance (ref_identifier r) cfg.env,
     "TRANSFORMED"⟩)

/-- `get_upstream_lineage_info(table_identifier, platform)`.

The mutable `self.lineage_metadata` cache is threaded explicitly: `st` is
the cache before the call, the second component of the result is the cache
after it, and the third counts how many underlying map constructions
(`_compute_bigquery_lineage`, which consults the external event source) the
call performed; `build` is the map such a construction would produce.
Returns `none` both when the key is absent and when `upstream_list` stays
empty, exactly as the Python `if upstream_list:` guard does. -/
def get_upstream_lineage_info (cfg : LineageConfig) (platform : String)
    (build : LineageMap) (st : Option LineageMap) (t : BigQueryTableRef) :
    Option (List UpstreamClass × List (String × String))
      × Option LineageMap × Nat :=
  let m := st.getD build
  let builds := if st.isSome then 0 else 1
  let bq := t.refString
  if m.memKey bq then
    let lst := facade_upstream_list cfg platform m bq
    if lst.isEmpty then (none, some m, builds) else (some (lst, []), some m, builds)
  else (none, some m, builds)

/-- A sequence of facade calls on one extractor whose cache starts as `st`;
returns the total number of underlying map constructions performed. -/
def lineage_call_seq (cfg : LineageConfig) (platform : String)
    (build : LineageMap) : List BigQueryTableRef → Option LineageMap → Nat
  | [], _ => 0
  | t :: ts, st =>
    let r := get_upstream_lineage_info cfg platform build st t
    r.2.2 + lineage_call_seq cfg platform build ts r.2.1

/-! ## `compute_bigquery_lineage_via_gcp_logging`: the log-source driver

The driver wraps fetching, parsing and map building in one `try`; a raised
exception anywhere while the lazy event stream is consumed lands in the
`except` branch, which records a single failure and returns the empty map.
`failsAfter = some n` models the log source raising after `n` events were
already consumed (the counters they updated persist on the mutable report,
the partial map is discarded); `none` models a clean run. -/
def compute_bigquery_lineage_via_gcp_logging (cfg : LineageConfig)
    (parser : SqlParser) (entries : List QueryEvent) (failsAfter : Option Nat)
    (rep : LineageReport) : LineageMap × LineageReport :=
  match failsAfter with
  | none => create_lineage_map cfg parser entries rep
  | some n =>
    let partial_ := create_lineage_map cfg parser (entries.take n) rep
    ([], { partial_.2 with failureCount := partial_.2.failureCount + 1 })

/-! ## Concrete fixtures used by witnesses and scenario theorems -/

/-- An allow-all configuration whose temporary classifier matches the bare
name `t1` (used by the end-to-end scenario). -/
def cfgX : LineageConfig :=
  ⟨fun _ => true, fun _ => true, "t1", none, "PROD"⟩

/-- The upstream base table `A` of the disambiguation scenarios. -/
def refA : BigQueryTableRef := ⟨"p", "d", "a"⟩

/-- The view `V` of the disambiguation scenarios. -/
def refV : BigQueryTableRef := ⟨"p", "d", "v"⟩

/-- The destination `D` of the disambiguation scenarios. -/
def refD : BigQueryTableRef := ⟨"p", "d", "t"⟩

/-- The disambiguation event: destination `D`, referenced tables `A` and
`V`, referenced views `V`. -/
def evAV : QueryEvent := ⟨some refD, [refA, refV], [refV], "select"⟩

/-- The lineage map of the disambiguation event under a parser that returns
a name matching neither reference: `D` is present with an empty upstream
set. -/
def mapEmptyD : LineageMap :=
  (create_lineage_map cfgX (fun _ => some ["zzz"]) [evAV] {}).1

/-- Scenario event 1: `p.d.t1` built from `p.d.raw`. -/
def evScen1 : QueryEvent := ⟨some ⟨"p", "d", "t1"⟩, [⟨"p", "d", "raw"⟩], [], "q1"⟩

/-- Scenario event 2: `p.d.t2` built from the temporary `p.d.t1`. -/
def evScen2 : QueryEvent := ⟨some ⟨"p", "d", "t2"⟩, [⟨"p", "d", "t1"⟩], [], "q2"⟩

/-- Scenario event 3: a read-only query, no destination. -/
def evScen3 : QueryEvent := ⟨none, [⟨"p", "x", "y"⟩], [], "q3"⟩

/-- The lineage map built from the three scenario events. -/
def mapScen : LineageMap :=
  (create_lineage_map cfgX (fun _ => none) [evScen1, evScen2, evScen3] {}).1

/-- A configuration whose temporary classifier matches the dataset `tmpds`. -/
def cfgTmp : LineageConfig :=
  ⟨fun _ => true, fun _ => true, "tmp", none, "PROD"⟩

/-- A map routing `p.d.t` through the temporary `p.tmpds.x` to `p.d.raw`. -/
def mapTmp : LineageMap :=
  [(BigQueryTableRef.refString ⟨"p", "d", "t"⟩,
      [BigQueryTableRef.refString ⟨"p", "tmpds", "x"⟩]),
   (BigQueryTableRef.refString ⟨"p", "tmpds", "x"⟩,
      [BigQueryTableRef.refString ⟨"p", "d", "raw"⟩])]

/-- First resolver call on `mapTmp` with the shared default seen list in its
definition-time state (empty). -/
def tmpCall1 : List String × List String :=
  get_upstream_tables (is_temporary_table "tmp") mapTmp
    (BigQueryTableRef.refString ⟨"p", "d", "t"⟩) []

/-- Second resolver call with identical arguments, but through the seen list
the first call left behind in the shared default object. -/
def tmpCall2 : List String × List String :=
  get_upstream_tables (is_temporary_table "tmp") mapTmp
    (BigQueryTableRef.refString ⟨"p", "d", "t"⟩) tmpCall1.2

/-- A cyclic map of two temporary tables referencing each other. -/
def mapCyc : LineageMap :=
  [(BigQueryTableRef.refString ⟨"p", "tmpds", "t1"⟩,
      [BigQueryTableRef.refString ⟨"p", "tmpds", "t2"⟩]),
   (BigQueryTableRef.refString ⟨"p", "tmpds", "t2"⟩,
      [BigQueryTableRef.refString ⟨"p", "tmpds", "t1"⟩])]

end BigqueryLineage

namespace BigqueryLineage

/-! ## Theorems -/

/-- The builder loop body never touches the failure counter (it only writes
the skip/total statistics). -/
theorem process_lineage_entry_failureCount (cfg : LineageConfig)
    (parser : SqlParser) (st : LineageMap × LineageReport) (e : QueryEvent) :
    (process_lineage_entry cfg parser st e).2.failureCount = st.2.failureCount := by
  unfold process_lineage_entry
  dsimp only
  repeat' split
  all_goals rfl

/-- Folding the builder over any event list leaves the failure counter of
the incoming state untouched. -/
theorem foldl_entries_failureCount (cfg : LineageConfig) (parser : SqlParser) :
    ∀ (entries : List QueryEvent) (st : LineageMap × LineageReport),
      (entries.foldl (process_lineage_entry cfg parser) st).2.failureCount
        = st.2.failureCount
  | [], _ => rfl
  | e :: es, st => by
      rw [List.foldl_cons, foldl_entries_failureCount cfg parser es,
        process_lineage_entry_failureCount]

/-- `_create_lineage_map` never records failures: it only counts skips. -/
theorem create_lineage_map_failureCount (cfg : LineageConfig)
    (parser : SqlParser) (entries : List QueryEvent) (rep : LineageReport) :
    (create_lineage_map cfg parser entries rep).2.failureCount
      = rep.failureCount := by
  unfold create_lineage_map
  rw [foldl_entries_failureCount]
  rfl

/-- C1: for the event with destination `D`, referencedTables `A, V`,
referencedViews `V` and a raising SQL parser, the claim (and the spec, and
the warning the code itself logs) say the event contributes nothing and the
failure counter increments by one.  Evaluating `_create_lineage_map` at
this input shows the counter does increment by exactly one, but the
unfiltered references `A` and `V` stay in the upstream set of `D`: the
`continue` in the handler runs after the additions already happened, so the
event does contribute, contradicting the logged "It will be skipped from
lineage". -/
theorem parser_failure_keeps_unfiltered_upstreams :
    (create_lineage_map cfgX (fun _ => none) [evAV] {}).1.findSetD refD.refString
        = [refA.refString, refV.refString]
      ∧ (create_lineage_map cfgX (fun _ => none) [evAV]
          {}).2.num_skipped_lineage_entries_sql_parser_failure = 1 := by
  decide

/-- C2 counterexample: a destination can be present in the lineage map with
an empty upstream set (the disambiguation filter removed every entry), yet
`get_upstream_lineage_info` returns the absent outcome for it, because the
`if upstream_list:` guard collapses present-but-empty to `None`. -/
theorem present_but_empty_returns_absent :
    mapEmptyD.memKey refD.refString = true
      ∧ mapEmptyD.findSetD refD.refString = []
      ∧ (get_upstream_lineage_info cfgX "bigquery" [] (some mapEmptyD) refD).1
          = none := by
  decide

/-- C2 amended: `get_upstream_lineage_info` returns the absent outcome
exactly when the target key is absent from the map or the resolved upstream
list is empty; a key that is present with all upstreams filtered out is
not distinguished from an absent key at the caller-facing interface. -/
theorem facade_absent_iff_no_key_or_no_upstreams (cfg : LineageConfig)
    (platform : String) (build m : LineageMap) (t : BigQueryTableRef) :
    (get_upstream_lineage_info cfg platform build (some m) t).1 = none
      ↔ (m.memKey t.refString = false
          ∨ facade_upstream_list cfg platform m t.refString = []) := by
  unfold get_upstream_lineage_info
  dsimp only [Option.getD_some, Option.isSome_some]
  cases hk : m.memKey t.refString with
  | false => simp [hk]
  | true =>
    cases he : (facade_upstream_list cfg platform m t.refString).isEmpty with
    | true => simp [hk, he, List.isEmpty_iff.mp he]
    | false =>
      have hne : facade_upstream_list cfg platform m t.refString ≠ [] := by
        intro hnil
        rw [hnil] at he
        exact absurd he (by simp)
      simp [hk, he, hne]

/-- C8: when the log source raises after any number `n` of consumed events,
the driver aborts the run: it records exactly one failure on the report and
returns the empty map instead of the partial one built so far. -/
theorem source_failure_aborts_with_empty_map (cfg : LineageConfig)
    (parser : SqlParser) (entries : List QueryEvent) (n : Nat)
    (rep : LineageReport) :
    (compute_bigquery_lineage_via_gcp_logging cfg parser entries (some n) rep).1 = []
      ∧ (compute_bigquery_lineage_via_gcp_logging cfg parser entries (some n)
          rep).2.failureCount = rep.failureCount + 1 := by
  constructor
  · rfl
  · show (create_lineage_map cfg parser (entries.take n) rep).2.failureCount + 1
        = rep.failureCount + 1
    rw [create_lineage_map_failureCount]

/-- C9 end-to-end scenario: from the three events (`p.d.t1` from `p.d.raw`;
`p.d.t2` from the temporary `p.d.t1`; a destination-less read), the facade
answers `p.d.t2` with the present result whose upstream list is exactly the
one entry for `p.d.raw`: the temporary table was replaced by its own
upstream and the read-only event contributed nothing. -/
theorem end_to_end_temp_resolution :
    (get_upstream_lineage_info cfgX "bigquery" mapScen none ⟨"p", "d", "t2"⟩).1
      = some ([⟨make_dataset_urn "bigquery" none "p.d.raw" "PROD", "TRANSFORMED"⟩],
              []) := by
  decide

/-- A facade call that finds the cache filled performs no construction and
leaves the cache unchanged. -/
theorem facade_call_cached (cfg : LineageConfig) (platform : String)
    (build m : LineageMap) (t : BigQueryTableRef) :
    (get_upstream_lineage_info cfg platform build (some m) t).2 = (some m, 0) := by
  unfold get_upstream_lineage_info
  dsimp only [Option.getD_some, Option.isSome_some]
  split
  · split <;> rfl
  · rfl

/-- A facade call that finds the cache absent performs exactly one
construction and fills the cache with its result. -/
theorem facade_call_builds (cfg : LineageConfig) (platform : String)
    (build : LineageMap) (t : BigQueryTableRef) :
    (get_upstream_lineage_info cfg platform build none t).2 = (some build, 1) := by
  unfold get_upstream_lineage_info
  dsimp only [Option.getD_none, Option.isSome_none]
  split
  · split <;> rfl
  · rfl

/-- Once the cache holds a map, an arbitrary further call sequence performs
no construction at all. -/
theorem lineage_call_seq_cached (cfg : LineageConfig) (platform : String)
    (build : LineageMap) :
    ∀ (ts : List BigQueryTableRef) (m : LineageMap),
      lineage_call_seq cfg platform build ts (some m) = 0
  | [], _ => rfl
  | t :: ts, m => by
      show (get_upstream_lineage_info cfg platform build (some m) t).2.2
          + lineage_call_seq cfg platform build ts
              (get_upstream_lineage_info cfg platform build (some m) t).2.1 = 0
      rw [facade_call_cached]
      simpa using lineage_call_seq_cached cfg platform build ts m

/-- C6: over any non-empty sequence of facade calls on one extractor whose
cache starts absent, the underlying map construction (the expensive step
that consults the external event source) runs exactly once: the first call
triggers it because the cached map is absent, and every later call reuses
the cached map, whatever the targets queried. -/
theorem map_construction_runs_once (cfg : LineageConfig) (platform : String)
    (build : LineageMap) (ts : List BigQueryTableRef) (h : ts ≠ []) :
    lineage_call_seq cfg platform build ts none = 1 := by
  cases ts with
  | nil => exact absurd rfl h
  | cons t ts =>
      show (get_upstream_lineage_info cfg platform build none t).2.2
          + lineage_call_seq cfg platform build ts
              (get_upstream_lineage_info cfg platform build none t).2.1 = 1
      rw [facade_call_builds]
      show 1 + lineage_call_seq cfg platform build ts (some build) = 1
      rw [lineage_call_seq_cached]

/-- C6 witness: two calls for the same target from a fresh extractor build
the map exactly once. -/
theorem map_construction_runs_once_witness :
    ([refD, refD] ≠ ([] : List BigQueryTableRef))
      ∧ lineage_call_seq cfgX "bigquery" [] [refD, refD] none = 1 :=
  ⟨by decide, map_construction_runs_once cfgX "bigquery" [] [refD, refD] (by decide)⟩

/-- The empty map has empty upstream sets. -/
theorem findSetD_nil (k : String) : LineageMap.findSetD [] k = [] := rfl

/-- Unfolding upstream lookup over a cons cell. -/
theorem findSet_cons (k' : String) (s : List String) (rest : LineageMap)
    (k : String) :
    LineageMap.findSet ((k', s) :: rest) k
      = if k' = k then some s else LineageMap.findSet rest k := rfl

/-- Unfolding upstream lookup over a cons cell. -/
theorem findSetD_cons (k' : String) (s : List String) (rest : LineageMap)
    (k : String) :
    LineageMap.findSetD ((k', s) :: rest) k
      = if k' = k then s else LineageMap.findSetD rest k := by
  unfold LineageMap.findSetD
  rw [findSet_cons]
  split <;> rfl

/-- Membership after a set insertion. -/
theorem mem_listInsert {l : List String} {v x : String} :
    x ∈ listInsert l v → x ∈ l ∨ x = v := by
  unfold listInsert
  split
  · exact Or.inl
  · intro h
    rcases List.mem_append.mp h with h | h
    · exact Or.inl h
    · exact Or.inr (List.mem_singleton.mp h)

/-- Membership in an upstream set after `lineage_map[d].add(v)`: either it
was already there, or it is the new element under the touched key. -/
theorem mem_findSetD_addUpstream :
    ∀ {m : LineageMap} {d v k x : String},
      x ∈ (addUpstream m d v).findSetD k → x ∈ m.findSetD k ∨ (k = d ∧ x = v)
  | [], d, v, k, x => by
      show x ∈ LineageMap.findSetD [(d, [v])] k → _
      rw [findSetD_cons, findSetD_nil]
      by_cases hdk : d = k
      · rw [if_pos hdk]
        intro hx
        exact Or.inr ⟨hdk.symm, List.mem_singleton.mp hx⟩
      · rw [if_neg hdk]
        intro hx
        exact absurd hx (List.not_mem_nil x)
  | (k', s) :: rest, d, v, k, x => by
      unfold addUpstream
      by_cases hkd : k' = d
      · rw [if_pos hkd, findSetD_cons, findSetD_cons]
        by_cases hkk : k' = k
        · rw [if_pos hkk, if_pos hkk]
          intro hx
          rcases mem_listInsert hx with h | h
          · exact Or.inl h
          · exact Or.inr ⟨hkk.symm.trans hkd, h⟩
        · rw [if_neg hkk, if_neg hkk]
          exact Or.inl
      · rw [if_neg hkd, findSetD_cons, findSetD_cons]
        by_cases hkk : k' = k
        · rw [if_pos hkk, if_pos hkk]
          exact Or.inl
        · rw [if_neg hkk, if_neg hkk]
          exact fun h => mem_findSetD_addUpstream h

/-- Membership in an upstream set after `lineage_map[d] = s`: under the
touched key it comes from `s`, elsewhere from the old map. -/
theorem mem_findSetD_setUpstreams :
    ∀ {m : LineageMap} {d : String} {s : List String} {k x : String},
      x ∈ (setUpstreams m d s).findSetD k → (k = d ∧ x ∈ s) ∨ x ∈ m.findSetD k
  | [], d, s, k, x => by
      show x ∈ LineageMap.findSetD [(d, s)] k → _
      rw [findSetD_cons, findSetD_nil]
      by_cases hdk : d = k
      · rw [if_pos hdk]
        exact fun hx => Or.inl ⟨hdk.symm, hx⟩
      · rw [if_neg hdk]
        exact fun hx => absurd hx (List.not_mem_nil x)
  | (k', s') :: rest, d, s, k, x => by
      unfold setUpstreams
      by_cases hkd : k' = d
      · rw [if_pos hkd, findSetD_cons, findSetD_cons]
        by_cases hkk : k' = k
        · rw [if_pos hkk, if_pos hkk]
          exact fun hx => Or.inl ⟨hkk.symm.trans hkd, hx⟩
        · rw [if_neg hkk, if_neg hkk]
          exact Or.inr
      · rw [if_neg hkd, findSetD_cons, findSetD_cons]
        by_cases hkk : k' = k
        · rw [if_pos hkk, if_pos hkk]
          exact Or.inr
        · rw [if_neg hkk, if_neg hkk]
          exact fun h => mem_findSetD_setUpstreams h

/-- The reference-adding fold of the builder keeps the no-self-upstream
invariant: it only ever adds references distinct from the destination, and
only under the destination key. -/
theorem foldl_addUpstream_no_self (destStr : String) :
    ∀ (refs : List BigQueryTableRef) (acc : LineageMap × Bool),
      (∀ k, k ∉ acc.1.findSetD k) →
      ∀ k, k ∉ ((refs.foldl (fun acc r =>
          let rs := r.refString
          if rs ≠ destStr then (addUpstream acc.1 destStr rs, true) else acc)
          acc).1.findSetD k)
  | [], acc, h => h
  | r :: rest, acc, h => by
      rw [List.foldl_cons]
      refine foldl_addUpstream_no_self destStr rest _ ?_
      dsimp only
      split
      · rename_i hne
        intro k hk
        rcases mem_findSetD_addUpstream hk with hm | ⟨rfl, hv⟩
        · exact h k hm
        · exact hne hv.symm
      · exact h

/-- One builder step keeps the no-self-upstream invariant. -/
theorem process_lineage_entry_no_self (cfg : LineageConfig)
    (parser : SqlParser) (st : LineageMap × LineageReport) (e : QueryEvent)
    (h : ∀ k, k ∉ st.1.findSetD k) :
    ∀ k, k ∉ (process_lineage_entry cfg parser st e).1.findSetD k := by
  cases hdest : e.destinationTable with
  | none =>
      unfold process_lineage_entry
      rw [hdest]
      exact h
  | some dest =>
      unfold process_lineage_entry
      rw [hdest]
      dsimp only
      split
      · exact h
      · split
        · exact h
        · have hviews : ∀ k, k ∉
              ((e.referencedViews.foldl (fun acc r =>
                  let rs := r.refString
                  if rs ≠ dest.refString then
                    (addUpstream acc.1 dest.refString rs, true) else acc)
                ((e.referencedTables.foldl (fun acc r =>
                  let rs := r.refString
                  if rs ≠ dest.refString then
                    (addUpstream acc.1 dest.refString rs, true) else acc)
                  (st.1, false)).1, false)).1.findSetD k) :=
            foldl_addUpstream_no_self dest.refString e.referencedViews _
              (foldl_addUpstream_no_self dest.refString e.referencedTables _ h)
          split
          · split
            · exact hviews
            · intro k hk
              rcases mem_findSetD_setUpstreams hk with ⟨rfl, hx⟩ | hm
              · exact hviews _ (List.mem_filter.mp hx).1
              · exact hviews k hm
          · split
            · exact hviews
            · exact hviews

/-- C4: in the lineage map returned by `_create_lineage_map` on any event
sequence, no destination key is a member of its own upstream set: a
referenced table or view whose canonical string equals the destination is
never added, and both the defaultdict additions and the disambiguation
replacement (a filter of the existing set) preserve the invariant. -/
theorem no_destination_is_its_own_upstream (cfg : LineageConfig)
    (parser : SqlParser) (entries : List QueryEvent) (rep : LineageReport)
    (k : String) :
    k ∉ (create_lineage_map cfg parser entries rep).1.findSetD k := by
  unfold create_lineage_map
  have : ∀ (es : List QueryEvent) (st : LineageMap × LineageReport),
      (∀ k, k ∉ st.1.findSetD k) →
      ∀ k, k ∉ ((es.foldl (process_lineage_entry cfg parser) st).1.findSetD k) := by
    intro es
    induction es with
    | nil => exact fun st h => h
    | cons e es ih =>
        intro st h
        rw [List.foldl_cons]
        exact ih _ (process_lineage_entry_no_self cfg parser st e h)
  exact this entries ([], resetLineageCounters rep)
    (fun k => by rw [findSetD_nil]; exact List.not_mem_nil k) k

/-- Shrinking the predicate cannot grow the filtered length. -/
theorem filter_length_mono {α : Type} {p q : α → Bool}
    (h : ∀ a, p a = true → q a = true) :
    ∀ l : List α, (l.filter p).length ≤ (l.filter q).length
  | [] => Nat.le_refl 0
  | a :: l => by
      by_cases hp : p a = true
      · rw [List.filter_cons_of_pos hp, List.filter_cons_of_pos (h a hp)]
        exact Nat.succ_le_succ (filter_length_mono h l)
      · rw [List.filter_cons_of_neg (by simpa using hp)]
        by_cases hq : q a = true
        · rw [List.filter_cons_of_pos hq]
          exact Nat.le_succ_of_le (filter_length_mono h l)
        · rw [List.filter_cons_of_neg (by simpa using hq)]
          exact filter_length_mono h l

/-- Dropping one element the old predicate kept makes the filtered length
strictly smaller. -/
theorem filter_length_strict {α : Type} {p q : α → Bool} {x : α}
    (hq : q x = true) (hp : p x = false) (h : ∀ a, p a = true → q a = true) :
    ∀ l : List α, x ∈ l → (l.filter p).length < (l.filter q).length
  | a :: l, hm => by
      rcases List.mem_cons.mp hm with rfl | hml
      · rw [List.filter_cons_of_pos hq, List.filter_cons_of_neg (by simp [hp])]
        exact Nat.lt_succ_of_le (filter_length_mono h l)
      · by_cases hpa : p a = true
        · rw [List.filter_cons_of_pos hpa, List.filter_cons_of_pos (h a hpa)]
          exact Nat.succ_lt_succ (filter_length_strict hq hp h l hml)
        · rw [List.filter_cons_of_neg (by simpa using hpa)]
          by_cases hqa : q a = true
          · rw [List.filter_cons_of_pos hqa]
            exact Nat.lt_succ_of_lt (filter_length_strict hq hp h l hml)
          · rw [List.filter_cons_of_neg (by simpa using hqa)]
            exact filter_length_strict hq hp h l hml

/-- A key the membership test accepts occurs in the key list. -/
theorem memKey_mem_keys : ∀ {m : LineageMap} {k : String},
    m.memKey k = true → k ∈ m.map Prod.fst
  | [], k, h => by simp [LineageMap.memKey, LineageMap.findSet] at h
  | (k', s) :: rest, k, h => by
      by_cases hk : k' = k
      · simp [hk]
      · have : LineageMap.memKey rest k = true := by
          simpa [LineageMap.memKey, LineageMap.findSet, hk] using h
        simpa using Or.inr (memKey_mem_keys this)

/-- Growing the seen list cannot grow the count of unseen temporary keys. -/
theorem tempUnseenCount_mono {m : LineageMap} {isTemp : String → Bool}
    {s s' : List String} (h : ∀ x, x ∈ s → x ∈ s') :
    tempUnseenCount m isTemp s' ≤ tempUnseenCount m isTemp s := by
  refine filter_length_mono (fun a ha => ?_) (m.map Prod.fst)
  simp only [Bool.and_eq_true, Bool.not_eq_true', decide_eq_false_iff_not] at ha ⊢
  exact ⟨ha.1, fun hmem => ha.2 (h a hmem)⟩

/-- Marking an unseen temporary map key as seen strictly decreases the
count of unseen temporary keys. -/
theorem tempUnseenCount_strict {m : LineageMap} {isTemp : String → Bool}
    {s : List String} {k : String} (hk : k ∈ m.map Prod.fst)
    (ht : isTemp k = true) (hs : k ∉ s) :
    tempUnseenCount m isTemp (s ++ [k]) < tempUnseenCount m isTemp s := by
  refine filter_length_strict ?_ ?_ (fun a ha => ?_) (m.map Prod.fst) hk
  · simp [ht, hs]
  · simp [ht]
  · simp only [Bool.and_eq_true, Bool.not_eq_true', decide_eq_false_iff_not,
      List.mem_append] at ha ⊢
    exact ⟨ha.1, fun hmem => ha.2 (Or.inl hmem)⟩

/-- The loop only ever appends to the seen list: everything seen on entry is
seen in the result. -/
theorem goRefs_seen_sub (m : LineageMap) (isTemp : String → Bool)
    (rec : String → List String → Option (List String × List String))
    (hrec : ∀ bq s r, rec bq s = some r → ∀ x, x ∈ s → x ∈ r.2) :
    ∀ (refs ups seen : List String) (r : List String × List String),
      goRefs m isTemp rec refs ups seen = some r → ∀ x, x ∈ seen → x ∈ r.2
  | [], ups, seen, r, h => by
      simp only [goRefs, Option.some_inj] at h
      subst h
      exact fun x hx => hx
  | ref :: rest, ups, seen, r, h => by
      unfold goRefs at h
      split at h
      · split at h
        · exact goRefs_seen_sub m isTemp rec hrec rest ups seen r h
        · dsimp only at h
          split at h
          · split at h
            · exact absurd h (by simp)
            · rename_i u_seen2 hr
              intro x hx
              have hx1 : x ∈ seen ++ [ref] := List.mem_append_left _ hx
              have hx2 := hrec _ _ _ hr x hx1
              exact goRefs_seen_sub m isTemp rec hrec rest _ _ r h x hx2
          · intro x hx
            exact goRefs_seen_sub m isTemp rec hrec rest ups _ r h x
              (List.mem_append_left _ hx)
      · exact goRefs_seen_sub m isTemp rec hrec rest _ seen r h

/-- `get_upstream_tables_fuel` only ever appends to the seen list. -/
theorem get_upstream_tables_fuel_seen_sub (isTemp : String → Bool)
    (m : LineageMap) :
    ∀ (fuel : Nat) (bq : String) (seen : List String)
      (r : List String × List String),
      get_upstream_tables_fuel isTemp m fuel bq seen = some r →
      ∀ x, x ∈ seen → x ∈ r.2
  | 0, bq, seen, r, h => by simp [get_upstream_tables_fuel] at h
  | fuel + 1, bq, seen, r, h => by
      unfold get_upstream_tables_fuel at h
      exact goRefs_seen_sub m isTemp _
        (get_upstream_tables_fuel_seen_sub isTemp m fuel) _ _ _ _ h

/-- The loop succeeds whenever every nested call is backed by enough fuel
for its strictly smaller unseen-temporary count. -/
theorem goRefs_isSome (m : LineageMap) (isTemp : String → Bool) (fuel : Nat)
    (rec : String → List String → Option (List String × List String))
    (hrec_some : ∀ bq s, tempUnseenCount m isTemp s < fuel →
      (rec bq s).isSome = true)
    (hrec_sub : ∀ bq s r, rec bq s = some r → ∀ x, x ∈ s → x ∈ r.2) :
    ∀ (refs ups seen : List String), tempUnseenCount m isTemp seen ≤ fuel →
      (goRefs m isTemp rec refs ups seen).isSome = true
  | [], ups, seen, hb => by simp [goRefs]
  | ref :: rest, ups, seen, hb => by
      unfold goRefs
      split
      · split
        · exact goRefs_isSome m isTemp fuel rec hrec_some hrec_sub rest ups seen hb
        · rename_i htemp hnotseen
          dsimp only
          split
          · rename_i hmem
            have hlt : tempUnseenCount m isTemp (seen ++ [ref]) < fuel :=
              Nat.lt_of_lt_of_le
                (tempUnseenCount_strict (memKey_mem_keys hmem) htemp hnotseen) hb
            have hsome := hrec_some ref (seen ++ [ref]) hlt
            cases hr : rec ref (seen ++ [ref]) with
            | none => rw [hr] at hsome; simp at hsome
            | some pr =>
                obtain ⟨u, seen2⟩ := pr
                have hsub := hrec_sub ref (seen ++ [ref]) (u, seen2) hr
                have hle : tempUnseenCount m isTemp seen2
                    ≤ tempUnseenCount m isTemp (seen ++ [ref]) :=
                  tempUnseenCount_mono (fun x hx => hsub x hx)
                exact goRefs_isSome m isTemp fuel rec hrec_some hrec_sub rest
                  (u.foldl listInsert ups) seen2 (Nat.le_of_lt (Nat.lt_of_le_of_lt hle hlt))
          · have hle : tempUnseenCount m isTemp (seen ++ [ref])
                ≤ tempUnseenCount m isTemp seen :=
              tempUnseenCount_mono (fun x hx => List.mem_append_left _ hx)
            exact goRefs_isSome m isTemp fuel rec hrec_some hrec_sub rest ups
              (seen ++ [ref]) (Nat.le_trans hle hb)
      · exact goRefs_isSome m isTemp fuel rec hrec_some hrec_sub rest
          (listInsert ups ref) seen hb

/-- C5: the resolver terminates on every lineage map, cyclic ones included:
with the shared seen list threaded through the whole call tree (never reset
by a nested call) and already-visited temporary tables skipped silently, a
recursion depth budget exceeding the number of temporary-classified map
keys not yet seen always suffices, so the recursion is finite and its depth
is bounded by the number of distinct temporary tables reachable. -/
theorem get_upstream_tables_fuel_terminates (isTemp : String → Bool)
    (m : LineageMap) :
    ∀ (fuel : Nat) (bq : String) (seen : List String),
      tempUnseenCount m isTemp seen < fuel →
      (get_upstream_tables_fuel isTemp m fuel bq seen).isSome = true
  | 0, _, _, h => absurd h (Nat.not_lt_zero _)
  | fuel + 1, bq, seen, h => by
      unfold get_upstream_tables_fuel
      exact goRefs_isSome m isTemp fuel (get_upstream_tables_fuel isTemp m fuel)
        (fun bq s hlt => get_upstream_tables_fuel_terminates isTemp m fuel bq s hlt)
        (get_upstream_tables_fuel_seen_sub isTemp m fuel)
        (m.findSetD bq) [] seen (Nat.lt_succ_iff.mp h)

/-- C5 witness: on the two-element cyclic map of mutually referencing
temporary tables, the resolver returns within the proved budget. -/
theorem get_upstream_tables_fuel_terminates_witness :
    tempUnseenCount mapCyc (is_temporary_table "tmp") [] < 3
      ∧ (get_upstream_tables_fuel (is_temporary_table "tmp") mapCyc 3
          (BigQueryTableRef.refString ⟨"p", "tmpds", "t1"⟩) []).isSome = true :=
  ⟨by decide, get_upstream_tables_fuel_terminates (is_temporary_table "tmp") mapCyc 3
    (BigQueryTableRef.refString ⟨"p", "tmpds", "t1"⟩) [] (by decide)⟩

/-- C10: the resolver mutates the seen list its caller passes; a call that
omits the argument uses the single list object bound when the function was
defined, so visits recorded by one such call persist into the next.  With
the shared default threaded through (empty at definition time), two calls
with identical arguments differ: the first resolves `p.d.t` through the
temporary `p.tmpds.x` to `p.d.raw`, the second finds the temporary already
seen, skips it, and returns strictly fewer upstreams. -/
theorem default_seen_list_leaks_across_calls :
    tmpCall1.1 = [BigQueryTableRef.refString ⟨"p", "d", "raw"⟩]
      ∧ tmpCall2.1 = []
      ∧ tmpCall2.1.length < tmpCall1.1.length := by
  decide

/-- Characters with equal codes are equal. -/
theorem char_toNat_inj {a b : Char} (h : a.toNat = b.toNat) : a = b := by
  rw [← Char.ofNat_toNat a, ← Char.ofNat_toNat b, h]

/-- The character-lexicographic order is total. -/
theorem lexLe_total : ∀ as bs : List Char, lexLe as bs = true ∨ lexLe bs as = true
  | [], _ => Or.inl rfl
  | _ :: _, [] => Or.inr rfl
  | a :: as, b :: bs => by
      unfold lexLe
      by_cases hab : a = b
      · rw [if_pos hab, if_pos hab.symm]
        exact lexLe_total as bs
      · rw [if_neg hab, if_neg (fun h => hab h.symm)]
        rcases Nat.lt_or_ge a.toNat b.toNat with h | h
        · exact Or.inl (by rw [Nat.blt_eq]; exact h)
        · rcases Nat.lt_or_ge b.toNat a.toNat with h2 | h2
          · exact Or.inr (by rw [Nat.blt_eq]; exact h2)
          · exact absurd (char_toNat_inj (Nat.le_antisymm h2 h)) hab

/-- The character-lexicographic order is transitive. -/
theorem lexLe_trans : ∀ {as bs cs : List Char},
    lexLe as bs = true → lexLe bs cs = true → lexLe as cs = true
  | [], _, _, _, _ => rfl
  | _ :: _, [], _, h1, _ => by simp [lexLe] at h1
  | _ :: _, _ :: _, [], _, h2 => by simp [lexLe] at h2
  | a :: as, b :: bs, c :: cs, h1, h2 => by
      unfold lexLe at h1 h2 ⊢
      by_cases hab : a = b <;> by_cases hbc : b = c
      · rw [if_pos hab] at h1
        rw [if_pos hbc] at h2
        rw [if_pos (hab.trans hbc)]
        exact lexLe_trans h1 h2
      · rw [if_pos hab] at h1
        rw [if_neg hbc] at h2
        rw [if_neg (fun h => hbc (hab ▸ h)), hab]
        exact h2
      · rw [if_neg hab] at h1
        rw [if_pos hbc] at h2
        rw [if_neg (fun h => hab (h.trans hbc.symm)), ← hbc]
        exact h1
      · rw [if_neg hab] at h1
        rw [if_neg hbc] at h2
        rw [Nat.blt_eq] at h1 h2
        have hlt : a.toNat < c.toNat := Nat.lt_trans h1 h2
        rw [if_neg (fun h => absurd hlt (by rw [h]; exact Nat.lt_irrefl _)),
          Nat.blt_eq]
        exact hlt

instance : IsTotal String idLeP :=
  ⟨fun a b => lexLe_total (ref_identifier a).data (ref_identifier b).data⟩

instance : IsTrans String idLeP :=
  ⟨fun _ _ _ h1 h2 => lexLe_trans h1 h2⟩

/-- The loop reads the map only through key membership, so maps with equal
lookups and pointwise equal nested calls run identically. -/
theorem goRefs_congr (m₁ m₂ : LineageMap) (isTemp : String → Bool)
    (rec₁ rec₂ : String → List String → Option (List String × List String))
    (hm : ∀ k, m₁.memKey k = m₂.memKey k)
    (hrec : ∀ bq s, rec₁ bq s = rec₂ bq s) :
    ∀ refs ups seen,
      goRefs m₁ isTemp rec₁ refs ups seen = goRefs m₂ isTemp rec₂ refs ups seen
  | [], _, _ => rfl
  | ref :: rest, ups, seen => by
      unfold goRefs
      split
      · split
        · exact goRefs_congr m₁ m₂ isTemp rec₁ rec₂ hm hrec rest ups seen
        · dsimp only
          rw [hm ref, hrec ref (seen ++ [ref])]
          split
          · cases hr : rec₂ ref (seen ++ [ref]) with
            | none => rfl
            | some pr =>
                obtain ⟨u, seen2⟩ := pr
                exact goRefs_congr m₁ m₂ isTemp rec₁ rec₂ hm hrec rest
                  (u.foldl listInsert ups) seen2
          · exact goRefs_congr m₁ m₂ isTemp rec₁ rec₂ hm hrec rest ups (seen ++ [ref])
      · exact goRefs_congr m₁ m₂ isTemp rec₁ rec₂ hm hrec rest (listInsert ups ref) seen

/-- Maps with equal lookups resolve identically at every fuel. -/
theorem get_upstream_tables_fuel_congr (isTemp : String → Bool)
    (m₁ m₂ : LineageMap) (hagree : ∀ k, m₁.findSet k = m₂.findSet k) :
    ∀ (fuel : Nat) (bq : String) (seen : List String),
      get_upstream_tables_fuel isTemp m₁ fuel bq seen
        = get_upstream_tables_fuel isTemp m₂ fuel bq seen
  | 0, _, _ => rfl
  | fuel + 1, bq, seen => by
      unfold get_upstream_tables_fuel
      have hfind : m₁.findSetD bq = m₂.findSetD bq := by
        unfold LineageMap.findSetD
        rw [hagree bq]
      rw [hfind]
      exact goRefs_congr m₁ m₂ isTemp _ _
        (fun k => by unfold LineageMap.memKey; rw [hagree k])
        (fun bq s => get_upstream_tables_fuel_congr isTemp m₁ m₂ hagree fuel bq s)
        (m₂.findSetD bq) [] seen

/-- Raising the fuel of every nested call preserves a successful run. -/
theorem goRefs_mono (m : LineageMap) (isTemp : String → Bool)
    (rec₁ rec₂ : String → List String → Option (List String × List String))
    (hrec : ∀ bq s r, rec₁ bq s = some r → rec₂ bq s = some r) :
    ∀ refs ups seen r,
      goRefs m isTemp rec₁ refs ups seen = some r →
      goRefs m isTemp rec₂ refs ups seen = some r
  | [], _, _, _, h => h
  | ref :: rest, ups, seen, r, h => by
      unfold goRefs at h ⊢
      split at h
      · split at h
        · rw [if_pos ‹isTemp ref = true›, if_pos ‹ref ∈ seen›]
          exact goRefs_mono m isTemp rec₁ rec₂ hrec rest ups seen r h
        · rw [if_pos ‹isTemp ref = true›, if_neg ‹ref ∉ seen›]
          dsimp only at h ⊢
          split at h
          · rw [if_pos ‹m.memKey ref = true›]
            split at h
            · exact absurd h (by simp)
            · rename_i u seen2 hr
              rw [hrec ref (seen ++ [ref]) (u, seen2) hr]
              exact goRefs_mono m isTemp rec₁ rec₂ hrec rest _ _ r h
          · rw [if_neg ‹¬m.memKey ref = true›]
            exact goRefs_mono m isTemp rec₁ rec₂ hrec rest ups (seen ++ [ref]) r h
      · rw [if_neg ‹¬isTemp ref = true›]
        exact goRefs_mono m isTemp rec₁ rec₂ hrec rest (listInsert ups ref) seen r h

/-- A successful resolution stays the same under any larger fuel. -/
theorem get_upstream_tables_fuel_mono (isTemp : String → Bool) (m : LineageMap) :
    ∀ (fuel fuel' : Nat), fuel ≤ fuel' →
      ∀ (bq : String) (seen : List String) (r : List String × List String),
        get_upstream_tables_fuel isTemp m fuel bq seen = some r →
        get_upstream_tables_fuel isTemp m fuel' bq seen = some r
  | 0, _, _, bq, seen, r, h => by simp [get_upstream_tables_fuel] at h
  | fuel + 1, 0, hle, _, _, _, _ => absurd hle (by omega)
  | fuel + 1, fuel' + 1, hle, bq, seen, r, h => by
      unfold get_upstream_tables_fuel at h ⊢
      exact goRefs_mono m isTemp _ _
        (fun bq s r hh => get_upstream_tables_fuel_mono isTemp m fuel fuel'
          (Nat.succ_le_succ_iff.mp hle) bq s r hh)
        _ _ _ _ h

/-- The resolver is a function of the map's lookup table alone: association
lists with equal lookups (however their entries are ordered) resolve every
target identically. -/
theorem get_upstream_tables_congr (isTemp : String → Bool) (m₁ m₂ : LineageMap)
    (hagree : ∀ k, m₁.findSet k = m₂.findSet k) (bq : String)
    (seen : List String) :
    get_upstream_tables isTemp m₁ bq seen = get_upstream_tables isTemp m₂ bq seen := by
  have h₁ := get_upstream_tables_fuel_terminates isTemp m₁
    (tempUnseenCount m₁ isTemp seen + 1) bq seen (Nat.lt_succ_self _)
  have h₂ := get_upstream_tables_fuel_terminates isTemp m₂
    (tempUnseenCount m₂ isTemp seen + 1) bq seen (Nat.lt_succ_self _)
  obtain ⟨r₁, hr₁⟩ := Option.isSome_iff_exists.mp h₁
  obtain ⟨r₂, hr₂⟩ := Option.isSome_iff_exists.mp h₂
  have e₁ := get_upstream_tables_fuel_mono isTemp m₁ _
    (max (tempUnseenCount m₁ isTemp seen + 1) (tempUnseenCount m₂ isTemp seen + 1))
    (Nat.le_max_left _ _) bq seen r₁ hr₁
  have e₂ := get_upstream_tables_fuel_mono isTemp m₂ _
    (max (tempUnseenCount m₁ isTemp seen + 1) (tempUnseenCount m₂ isTemp seen + 1))
    (Nat.le_max_right _ _) bq seen r₂ hr₂
  rw [get_upstream_tables_fuel_congr isTemp m₁ m₂ hagree] at e₁
  have : r₁ = r₂ := Option.some_inj.mp (e₁.symm.trans e₂)
  unfold get_upstream_tables
  rw [hr₁, hr₂, this]

/-- C7: the facade sorts the resolved upstreams by the total
character-lexicographic order over the caller-facing identifier string, and
resolution plus ordering is deterministic: two runs over maps with equal
lookup tables (in particular, two runs over one identical map, or over maps
built from differently-ordered events that ended up equal as dictionaries)
return equal caller-facing results. -/
theorem facade_sorted_and_deterministic (cfg : LineageConfig)
    (platform : String) (build₁ build₂ m₁ m₂ : LineageMap)
    (t : BigQueryTableRef) (hagree : ∀ k, m₁.findSet k = m₂.findSet k) :
    (get_upstream_lineage_info cfg platform build₁ (some m₁) t).1
        = (get_upstream_lineage_info cfg platform build₂ (some m₂) t).1
      ∧ List.Sorted idLeP (facade_sorted_refs cfg m₁ t.refString) := by
  constructor
  · have hlist : facade_upstream_list cfg platform m₁ t.refString
        = facade_upstream_list cfg platform m₂ t.refString := by
      unfold facade_upstream_list facade_sorted_refs
      rw [get_upstream_tables_congr (is_temporary_table cfg.tempTablePfx) m₁ m₂ hagree]
    have hmem : m₁.memKey t.refString = m₂.memKey t.refString := by
      unfold LineageMap.memKey
      rw [hagree]
    unfold get_upstream_lineage_info
    dsimp only [Option.getD_some]
    rw [hmem, hlist]
    split
    · split <;> rfl
    · rfl
  · exact List.sorted_insertionSort idLeP _

/-- C7 witness: on the concrete two-entry map the facade result is
repeatable and its upstream reference list is sorted. -/
theorem facade_sorted_and_deterministic_witness :
    (∀ k, LineageMap.findSet mapTmp k = LineageMap.findSet mapTmp k)
      ∧ ((get_upstream_lineage_info cfgTmp "bigquery" [] (some mapTmp)
            ⟨"p", "d", "t"⟩).1
          = (get_upstream_lineage_info cfgTmp "bigquery" [] (some mapTmp)
              ⟨"p", "d", "t"⟩).1
        ∧ List.Sorted idLeP
            (facade_sorted_refs cfgTmp mapTmp
              (BigQueryTableRef.refString ⟨"p", "d", "t"⟩))) :=
  ⟨fun _ => rfl,
   facade_sorted_and_deterministic cfgTmp "bigquery" [] [] mapTmp mapTmp
     ⟨"p", "d", "t"⟩ (fun _ => rfl)⟩


/-- C3: processing an event with destination `D`, referencedTables `A, V`,
referencedViews `V` (all distinct after canonicalization, destination
allowed) whose query the SQL parser resolves to exactly the bare name of
`A`, stores exactly `A` as the upstream set of `D`: only entries whose bare
table name (final path segment) appears in the parsed reference set are
kept, and `V` is excluded. -/
theorem disambiguation_keeps_only_parsed_tables (cfg : LineageConfig)
    (parser : SqlParser) (a v d : BigQueryTableRef) (q : String)
    (ts : List String) (rep : LineageReport)
    (hallow_d : cfg.datasetAllowed (datasetOfRef d.refString) = true)
    (hallow_t : cfg.tableAllowed (tableOfRef d.refString) = true)
    (hAD : a.refString ≠ d.refString)
    (hVD : v.refString ≠ d.refString)
    (hVA : v.refString ≠ a.refString)
    (hparse : parser q = some ts)
    (hA : tableOfRef a.refString ∈ ts.map (lastSeg '.'))
    (hV : tableOfRef v.refString ∉ ts.map (lastSeg '.')) :
    (create_lineage_map cfg parser [⟨some d, [a, v], [v], q⟩]
      rep).1.findSetD d.refString = [a.refString] := by
  have h2 : addUpstream [(d.refString, [a.refString])] d.refString v.refString
      = [(d.refString, [a.refString, v.refString])] := by
    unfold addUpstream
    rw [if_pos rfl]
    unfold listInsert
    rw [if_neg (by simp [hVA])]
    rfl
  have h3 : addUpstream [(d.refString, [a.refString, v.refString])] d.refString
      v.refString = [(d.refString, [a.refString, v.refString])] := by
    unfold addUpstream
    rw [if_pos rfl]
    unfold listInsert
    rw [if_pos (by simp)]
  have h4 : LineageMap.findSetD [(d.refString, [a.refString, v.refString])]
      d.refString = [a.refString, v.refString] := by
    rw [findSetD_cons, if_pos rfl]
  have h5 : ∀ s : List String,
      setUpstreams [(d.refString, [a.refString, v.refString])] d.refString s
        = [(d.refString, s)] := by
    intro s
    unfold setUpstreams
    rw [if_pos rfl]
  unfold create_lineage_map
  rw [List.foldl_cons, List.foldl_nil]
  unfold process_lineage_entry
  dsimp only
  rw [if_neg (by simp)]
  rw [if_neg (by rw [hallow_d, hallow_t]; simp)]
  rw [List.foldl_cons, List.foldl_cons, List.foldl_nil, List.foldl_cons,
    List.foldl_nil]
  dsimp only
  rw [if_pos hAD]
  dsimp only
  rw [if_pos hVD]
  dsimp only
  rw [if_pos hVD]
  dsimp only
  rw [if_pos (by decide : (true && true) = true)]
  rw [hparse]
  dsimp only
  rw [show addUpstream [] d.refString a.refString
      = [(d.refString, [a.refString])] from rfl]
  rw [h2, h3, h4, h5]
  rw [List.filter_cons_of_pos (by simpa using hA),
    List.filter_cons_of_neg (by simpa using hV), List.filter_nil]
  rw [findSetD_cons, if_pos rfl]

/-- C3 witness: the concrete disambiguation event with a parser returning
the bare name of `A` stores exactly `A` for `D`. -/
theorem disambiguation_keeps_only_parsed_tables_witness :
    cfgX.datasetAllowed (datasetOfRef refD.refString) = true
      ∧ cfgX.tableAllowed (tableOfRef refD.refString) = true
      ∧ refA.refString ≠ refD.refString
      ∧ refV.refString ≠ refD.refString
      ∧ refV.refString ≠ refA.refString
      ∧ (fun (_ : String) => some ["a"]) "select" = some ["a"]
      ∧ tableOfRef refA.refString ∈ (["a"].map (lastSeg '.'))
      ∧ tableOfRef refV.refString ∉ (["a"].map (lastSeg '.'))
      ∧ (create_lineage_map cfgX (fun _ => some ["a"])
          [⟨some refD, [refA, refV], [refV], "select"⟩]
          {}).1.findSetD refD.refString = [refA.refString] :=
  ⟨by decide, by decide, by decide, by decide, by decide, rfl, by decide, by decide,
   disambiguation_keeps_only_parsed_tables cfgX (fun _ => some ["a"])
     refA refV refD "select" ["a"] {} (by decide) (by decide) (by decide)
     (by decide) (by decide) rfl (by decide) (by decide)⟩

end BigqueryLineage
